import Mathlib

/-!
Verification of the layered-configuration engine (deep merge + `${...}`
reference resolution) of the `dragon-fnd` repository.

The Rust sources are shallowly embedded:
* `toml::Value` becomes the inductive `Value`; `toml::Table` (a map with
  unique string keys, iterated in a fixed order) becomes an association
  list `Table` whose `get`/`insert` mirror the map operations.  Floats and
  datetimes are never inspected by the code under verification beyond
  taking their canonical textual rendering, so the `float` and `datetime`
  constructors carry that rendering directly.
* In-place mutation (`&mut`) becomes explicit state passing: every
  function that mutates a table returns the table's final state together
  with the `Result`, so that the state after a *failed* call is also
  captured (resolution is not atomic on failure).
-/

set_option maxRecDepth 4000

namespace Dragon

/-- Embeds `toml::Value` (src/src/config/resolve.rs operates on it).
`float` and `datetime` carry the value's canonical textual rendering,
since the code under verification only ever calls `to_string()` on them. -/
inductive Value where
  | str (s : String)
  | int (i : Int)
  | float (text : String)
  | bool (b : Bool)
  | datetime (text : String)
  | arr (items : List Value)
  | table (entries : List (String × Value))

/-- Embeds `toml::Table`: a finite map from string keys to values,
modelled as an association list with unique keys. -/
abbrev Table := List (String × Value)

/-- Map lookup: embeds `Table::get`. -/
def Table.get (t : Table) (k : String) : Option Value :=
  match t with
  | [] => none
  | (k', v) :: rest => if k' = k then some v else Table.get rest k

/-- Map insert-or-replace: embeds `Table::insert` (replacing the value at
an existing key, otherwise adding the key). -/
def Table.insert (t : Table) (k : String) (v : Value) : Table :=
  match t with
  | [] => [(k, v)]
  | (k', v') :: rest =>
    if k' = k then (k, v) :: rest else (k', v') :: Table.insert rest k v

/-- Whether a value is a `Table` (Rust's `matches!(v, Value::Table(_))`). -/
def Value.isTable : Value → Bool
  | .table _ => true
  | _ => false

mutual
/-- Embeds `deep_merge` (src/src/config/source.rs lines 121-132, and the
identical copy in src/src/config/builder.rs lines 191-202): fold every
overlay entry into the base, merging Table/Table collisions recursively
and replacing outright otherwise. -/
def deep_merge (base : Table) : Table → Table
  | [] => base
  | (k, v) :: rest => deep_merge (deep_merge_entry base k v) rest

/-- One iteration of `deep_merge`'s loop body: the
`match (base.get_mut(&key), value)` step for a single overlay entry. -/
def deep_merge_entry (base : Table) (k : String) (v : Value) : Table :=
  match Table.get base k, v with
  | some (.table bt), .table ot => Table.insert base k (.table (deep_merge bt ot))
  | _, _ => Table.insert base k v
end

/-- The spec's per-key description of deep merge (§4.1, claim C4): a
Table/Table collision merges recursively, any other overlay value
replaces outright, and keys absent from the overlay keep the base
value. -/
def mergeOutcome (b o : Option Value) : Option Value :=
  match b, o with
  | some (.table bt), some (.table ot) => some (.table (deep_merge bt ot))
  | _, some v => some v
  | b, none => b

/-- Embeds `merge_at_path` (src/src/config/source.rs lines 78-114). -/
def merge_at_path (tree : Table) (path : List String) (value : Value) : Table :=
  match path with
  | [] =>
    match value with
    | .table overlay => deep_merge tree overlay
    | _ => tree
  | [first] =>
    match Table.get tree first, value with
    | some (.table base), .table overlay =>
      Table.insert tree first (.table (deep_merge base overlay))
    | _, _ => Table.insert tree first value
  | first :: rest =>
    let tree' :=
      match Table.get tree first with
      | some (.table _) => tree
      | _ => Table.insert tree first (.table [])
    match Table.get tree' first with
    | some (.table nested) =>
      Table.insert tree' first (.table (merge_at_path nested rest value))
    | _ => tree'

/-- Embeds the resolver-relevant variants of `ConfigError`
(src/src/config/error.rs); the file/parse/decode variants are out of the
resolver's reach and not needed by any claim. -/
inductive ConfigError where
  | circularReference
  | referenceNotFound (path : String)
  | invalidReferencePath (path : String)
  | nonScalarReference (path : String)
  | unclosedReference
deriving DecidableEq

/-- Embeds `value_to_string` (src/src/config/resolve.rs lines 130-141):
the canonical textual rendering of a scalar, or a non-scalar error. -/
def value_to_string (v : Value) (path : String) : Except ConfigError String :=
  match v with
  | .str s => .ok s
  | .int i => .ok (toString i)
  | .float text => .ok text
  | .bool b => .ok (if b then "true" else "false")
  | .datetime text => .ok text
  | .arr _ => .error (.nonScalarReference path)
  | .table _ => .error (.nonScalarReference path)

/-- Embeds `path.split('.')` from `lookup_path`: Rust's `str::split` on a
single-char pattern (always yields at least one piece; empty input yields
one empty piece; adjacent dots yield empty pieces). -/
def splitDots : List Char → List (List Char)
  | [] => [[]]
  | c :: rest =>
    let r := splitDots rest
    if c = '.' then [] :: r
    else
      match r with
      | h :: t => (c :: h) :: t
      | [] => [[c]]

/-- The dotted-path walk of `lookup_path` (src/src/config/resolve.rs lines
116-124): each remaining segment must resolve through a nested table.
Starting it at `.table root` performs the initial `root.get(parts[0])`
exactly as the Rust does. -/
def lookup_chain (current : Value) (parts : List String) (path : String) :
    Except ConfigError Value :=
  match parts with
  | [] => .ok current
  | p :: rest =>
    match current with
    | .table t =>
      match Table.get t p with
      | some v => lookup_chain v rest path
      | none => .error (.referenceNotFound path)
    | _ => .error (.referenceNotFound path)

/-- Embeds `lookup_path` (src/src/config/resolve.rs lines 107-127): split
the captured text on dots, reject empty paths/segments, walk the snapshot,
render the found value. -/
def lookup_path (root : Table) (p : List Char) : Except ConfigError String :=
  let parts := splitDots p
  if parts.isEmpty || parts.any (fun part => part.isEmpty) then
    .error (.invalidReferencePath (String.mk p))
  else
    match lookup_chain (.table root) (parts.map fun cs => String.mk cs) (String.mk p) with
    | .ok v => value_to_string v (String.mk p)
    | .error e => .error e

/-- Scanner state for `resolve_string`'s character loop: `normal` between
tokens, `afterDollar` right after an unprocessed `$` (Rust's peek), and
`inRef acc` inside `${...}` with the reversed captured path (Rust's
`consume_until`). -/
inductive ScanMode where
  | normal
  | afterDollar
  | inRef (acc : List Char)

/-- Embeds the scanning loop of `resolve_string` together with
`consume_until` (src/src/config/resolve.rs lines 57-104) as a one-step
automaton over the remaining characters: `$$` emits `$`, `${...}` is
captured, looked up in the snapshot and spliced (counted), a lone `$` is
emitted literally, and an unterminated `${` is an unclosed-reference
error. -/
def scanGo (root : Table) : ScanMode → List Char → Except ConfigError (List Char × Nat)
  | .normal, [] => .ok ([], 0)
  | .normal, c :: rest =>
    if c = '$' then scanGo root .afterDollar rest
    else (scanGo root .normal rest).map fun p => (c :: p.1, p.2)
  | .afterDollar, [] => .ok (['$'], 0)
  | .afterDollar, c :: rest =>
    if c = '$' then (scanGo root .normal rest).map fun p => ('$' :: p.1, p.2)
    else if c = '{' then scanGo root (.inRef []) rest
    else (scanGo root .normal rest).map fun p => ('$' :: c :: p.1, p.2)
  | .inRef _, [] => .error .unclosedReference
  | .inRef acc, c :: rest =>
    if c = '}' then
      match lookup_path root acc.reverse with
      | .ok resolved =>
        (scanGo root .normal rest).map fun p => (resolved.data ++ p.1, p.2 + 1)
      | .error e => .error e
    else scanGo root (.inRef (c :: acc)) rest

/-- Embeds `resolve_string` (src/src/config/resolve.rs lines 57-92): on
success the string is replaced by the scanned output (`*s = result`), on
error it is left untouched (the write is never reached). -/
def resolve_string (s : String) (root : Table) : String × Except ConfigError Nat :=
  match scanGo root .normal s.data with
  | .ok (out, n) => (String.mk out, .ok n)
  | .error e => (s, .error e)

mutual
/-- Embeds `resolve_value` (src/src/config/resolve.rs lines 40-53),
returning the value's post-call state alongside the result. -/
def resolve_value (v : Value) (root : Table) : Value × Except ConfigError Nat :=
  match v with
  | .str s =>
    match resolve_string s root with
    | (s', r) => (.str s', r)
  | .table t =>
    match resolve_pass t root with
    | (t', r) => (.table t', r)
  | .arr items =>
    match resolve_array items root with
    | (items', r) => (.arr items', r)
  | v => (v, .ok 0)

/-- Embeds the array loop of `resolve_value`: items are visited in order
and the first error stops the walk, leaving later items untouched. -/
def resolve_array (items : List Value) (root : Table) :
    List Value × Except ConfigError Nat :=
  match items with
  | [] => ([], .ok 0)
  | v :: rest =>
    match resolve_value v root with
    | (v', .ok n1) =>
      match resolve_array rest root with
      | (rest', .ok n2) => (v' :: rest', .ok (n1 + n2))
      | (rest', .error e) => (v' :: rest', .error e)
    | (v', .error e) => (v' :: rest, .error e)

/-- Embeds `resolve_pass` (src/src/config/resolve.rs lines 29-37): every
entry is rewritten in order against the fixed snapshot `root`; the first
error propagates (`?`), leaving later entries untouched. -/
def resolve_pass (t : Table) (root : Table) : Table × Except ConfigError Nat :=
  match t with
  | [] => ([], .ok 0)
  | (k, v) :: rest =>
    match resolve_value v root with
    | (v', .ok n1) =>
      match resolve_pass rest root with
      | (rest', .ok n2) => ((k, v') :: rest', .ok (n1 + n2))
      | (rest', .error e) => ((k, v') :: rest', .error e)
    | (v', .error e) => ((k, v') :: rest, .error e)
end

/-- The fuelled loop of `resolve_references`: each iteration clones the
current tree as the pass's snapshot (`resolve_pass t t`), stops with
success on a zero-substitution pass, propagates pass errors, and reports
a circular reference when the fuel runs out. -/
def resolve_references_go : Nat → Table → Table × Except ConfigError Unit
  | 0, t => (t, .error .circularReference)
  | fuel + 1, t =>
    match resolve_pass t t with
    | (t', .ok 0) => (t', .ok ())
    | (t', .ok (_ + 1)) => resolve_references_go fuel t'
    | (t', .error e) => (t', .error e)

/-- Embeds `resolve_references` (src/src/config/resolve.rs lines 13-25):
`MAX_ITERATIONS = 100` passes of fuel. -/
def resolve_references (t : Table) : Table × Except ConfigError Unit :=
  resolve_references_go 100 t

/-- The result of the `k`-th pass (counting from 0) of
`resolve_references`, assuming all earlier passes returned `Ok`: each step
snapshots the current tree and runs one pass against it, exactly as the
loop body of `resolve_references` does. -/
def iterPass : Nat → Table → Table × Except ConfigError Nat
  | 0, t => resolve_pass t t
  | k + 1, t =>
    match resolve_pass t t with
    | (t', .ok _) => iterPass k t'
    | (t', .error e) => (t', .error e)

/-- The substitution count of an `Ok` pass result (0 for errors). -/
def countOr0 : Except ConfigError Nat → Nat
  | .ok n => n
  | .error _ => 0

/-- The text contains no `$$` and no `${` substring: every `$` in it —
including a trailing `$` — is lone, i.e. not followed by `$` or `{`.
Such text is exactly what the scanner re-emits unchanged with a zero
substitution count. -/
def dollarInert : List Char → Bool
  | [] => true
  | c :: rest =>
    if c = '$' then
      match rest with
      | [] => true
      | c2 :: _ => !(c2 == '$' || c2 == '{') && dollarInert rest
    else dollarInert rest

mutual
/-- Every string leaf reachable from this value is `dollarInert`. -/
def valueInert : Value → Bool
  | .str s => dollarInert s.data
  | .table t => tableInert t
  | .arr items => arrInert items
  | _ => true

/-- Every string leaf in any of these values is `dollarInert`. -/
def arrInert : List Value → Bool
  | [] => true
  | v :: rest => valueInert v && arrInert rest

/-- Every string leaf reachable from this table is `dollarInert`. -/
def tableInert : Table → Bool
  | [] => true
  | (_, v) :: rest => valueInert v && tableInert rest
end

/-- ASCII-only lowercasing of one character, as used by Rust's
`eq_ignore_ascii_case`. -/
def asciiLower (c : Char) : Char :=
  if 'A' ≤ c ∧ c ≤ 'Z' then Char.ofNat (c.toNat + 32) else c

/-- Embeds `str::eq_ignore_ascii_case`: equality after ASCII-lowercasing
both sides (non-ASCII characters compare exactly). -/
def eqIgnoreAsciiCase (a b : List Char) : Bool :=
  a.map asciiLower == b.map asciiLower

/-- Embeds `looks_like_integer` (src/src/config/env.rs lines 93-96):
an optional leading `-` stripped, then one or more ASCII digits. -/
def looks_like_integer (s : List Char) : Bool :=
  let s' := match s with
    | '-' :: rest => rest
    | _ => s
  !s'.isEmpty && s'.all Char.isDigit

/-- The base-10 value of a digit string. -/
def digitsToNat (cs : List Char) : Nat :=
  cs.foldl (fun a c => a * 10 + (c.toNat - 48)) 0

/-- Embeds `str::parse::<i64>()` on the inputs `coerce_value` feeds it
(an optional sign then digits): the base-10 value when it fits in the
signed 64-bit range, `none` otherwise. -/
def parse_i64 (s : List Char) : Option Int :=
  let (neg, ds) := match s with
    | '-' :: rest => (true, rest)
    | '+' :: rest => (false, rest)
    | cs => (false, cs)
  if ds.isEmpty then none
  else if !ds.all Char.isDigit then none
  else
    let v : Int := if neg then -(digitsToNat ds : Int) else (digitsToNat ds : Int)
    if -(2 ^ 63) ≤ v ∧ v ≤ 2 ^ 63 - 1 then some v else none

/-- Splits a character list at the first character satisfying `p`:
`(before, none)` when no such character exists, else
`(before, some after)` with the matching character dropped. -/
def splitFirst (cs : List Char) (p : Char → Bool) : List Char × Option (List Char) :=
  match cs with
  | [] => ([], none)
  | c :: rest =>
    if p c then ([], some rest)
    else
      match splitFirst rest p with
      | (before, r) => (c :: before, r)

/-- One or more ASCII digits. -/
def isDigits (cs : List Char) : Bool :=
  !cs.isEmpty && cs.all Char.isDigit

/-- An optional leading `+` or `-` stripped. -/
def dropSign (cs : List Char) : List Char :=
  match cs with
  | '+' :: rest => rest
  | '-' :: rest => rest
  | _ => cs

/-- The mantissa part of Rust's `f64` grammar:
`Digit+ | Digit+ '.' Digit* | Digit* '.' Digit+`. -/
def mantissaOk (cs : List Char) : Bool :=
  match splitFirst cs (fun c => c = '.') with
  | (l, none) => isDigits l
  | (l, some r) =>
    l.all Char.isDigit && r.all Char.isDigit && !(l.isEmpty && r.isEmpty)
      && !r.contains '.'

/-- Embeds the acceptance of `str::parse::<f64>()` (the documented
`FromStr` grammar for `f64`): optional sign, then `inf`, `infinity` or
`nan` (case-insensitive) or a decimal mantissa with an optional
exponent. -/
def parse_f64_accepts (cs : List Char) : Bool :=
  let body := dropSign cs
  let lower := body.map asciiLower
  if lower == "inf".data || lower == "infinity".data || lower == "nan".data then
    true
  else
    match splitFirst body (fun c => c = 'e' || c = 'E') with
    | (mant, none) => mantissaOk mant
    | (mant, some expPart) => mantissaOk mant && isDigits (dropSign expPart)

/-- Embeds `coerce_value` (src/src/config/env.rs lines 65-90): boolean,
then integer, then float, then verbatim string.  The float constructor
carries the raw text (its canonical rendering in this embedding). -/
def coerce_value (s : String) : Value :=
  if eqIgnoreAsciiCase s.data "true".data then .bool true
  else if eqIgnoreAsciiCase s.data "false".data then .bool false
  else
    match (if looks_like_integer s.data then parse_i64 s.data else none) with
    | some i => .int i
    | none =>
      if s.data.contains '.' && parse_f64_accepts s.data then .float s
      else .str s

/-- Modelled from the spec's words (§4.3, claim C9), for comparison with
`coerce_value`: classify in strict order — case-insensitive true/false,
then optional-minus-digits parsed as a 64-bit integer, then (else) a
float attempt when a `.` is present, and String verbatim otherwise or on
any failed typed parse. -/
def coerce_spec (s : String) : Value :=
  if eqIgnoreAsciiCase s.data "true".data then .bool true
  else if eqIgnoreAsciiCase s.data "false".data then .bool false
  else if looks_like_integer s.data then
    match parse_i64 s.data with
    | some i => .int i
    | none => .str s
  else if s.data.contains '.' then
    if parse_f64_accepts s.data then .float s else .str s
  else .str s

/-! ### Association-table lemmas -/

theorem Table.get_insert_self (t : Table) (k : String) (v : Value) :
    Table.get (Table.insert t k v) k = some v := by
  induction t with
  | nil => simp [Table.insert, Table.get]
  | cons kv rest ih =>
    obtain ⟨k', v'⟩ := kv
    by_cases h : k' = k
    · simp [Table.insert, Table.get, h]
    · simp [Table.insert, Table.get, h, ih]

theorem Table.get_insert_ne (t : Table) (k k2 : String) (v : Value) (h : k ≠ k2) :
    Table.get (Table.insert t k v) k2 = Table.get t k2 := by
  induction t with
  | nil => simp [Table.insert, Table.get, h]
  | cons kv rest ih =>
    obtain ⟨k', v'⟩ := kv
    by_cases hk : k' = k
    · subst hk; simp [Table.insert, Table.get, h]
    · simp [Table.insert, Table.get, hk, ih]

theorem Table.get_eq_none (t : Table) (k : String) (h : k ∉ t.map Prod.fst) :
    Table.get t k = none := by
  induction t with
  | nil => rfl
  | cons kv rest ih =>
    obtain ⟨k', v'⟩ := kv
    simp only [List.map_cons, List.mem_cons] at h
    push_neg at h
    have hne : ¬k' = k := fun hkk => h.1 hkk.symm
    simp [Table.get, hne, ih h.2]

/-! ### Deep-merge characterization -/

theorem mergeOutcome_none (b : Option Value) : mergeOutcome b none = b := by
  cases b with
  | none => rfl
  | some v => cases v <;> rfl

theorem deep_merge_entry_get_self (base : Table) (k : String) (v : Value) :
    Table.get (deep_merge_entry base k v) k
      = mergeOutcome (Table.get base k) (some v) := by
  unfold deep_merge_entry
  cases hb : Table.get base k with
  | none => cases v <;> simp [mergeOutcome, Table.get_insert_self]
  | some bv => cases bv <;> cases v <;> simp [mergeOutcome, Table.get_insert_self]

theorem deep_merge_entry_get_ne (base : Table) (k k2 : String) (v : Value)
    (h : k ≠ k2) :
    Table.get (deep_merge_entry base k v) k2 = Table.get base k2 := by
  unfold deep_merge_entry
  cases hb : Table.get base k with
  | none => cases v <;> simp [Table.get_insert_ne _ _ _ _ h]
  | some bv => cases bv <;> cases v <;> simp [Table.get_insert_ne _ _ _ _ h]

theorem deep_merge_get (overlay : Table) :
    ∀ base : Table, (overlay.map Prod.fst).Nodup → ∀ k : String,
      Table.get (deep_merge base overlay)  k
        = mergeOutcome (Table.get base k) (Table.get overlay k) := by
  induction overlay with
  | nil => intro base _ k; simp [deep_merge, Table.get, mergeOutcome_none]
  | cons kv rest ih =>
    intro base hnd k
    obtain ⟨k0, v0⟩ := kv
    simp only [List.map_cons, List.nodup_cons] at hnd
    have hstep : deep_merge base ((k0, v0) :: rest)
        = deep_merge (deep_merge_entry base k0 v0) rest := by
      simp [deep_merge]
    rw [hstep, ih (deep_merge_entry base k0 v0) hnd.2 k]
    by_cases hk : k0 = k
    · subst hk
      rw [Table.get_eq_none rest k0 hnd.1, mergeOutcome_none,
        deep_merge_entry_get_self]
      simp [Table.get]
    · rw [deep_merge_entry_get_ne _ _ _ _ hk]
      simp [Table.get, hk]

/-- C4: deep-merge processes every key of the overlay; Table/Table
collisions merge recursively (to arbitrary depth, via the nested
`deep_merge` in `mergeOutcome`), and every other overlay value — arrays
included — replaces the base value at that key outright, so
`merge({a:[1,2]}, {a:[3]}) == {a:[3]}` and arrays are never merged
element-wise. -/
theorem c4_deep_merge_replaces_non_tables :
    (∀ base overlay : Table, (overlay.map Prod.fst).Nodup → ∀ k : String,
        Table.get (deep_merge base overlay) k
          = mergeOutcome (Table.get base k) (Table.get overlay k))
    ∧ deep_merge [("a", Value.arr [Value.int 1, Value.int 2])]
        [("a", Value.arr [Value.int 3])]
      = [("a", Value.arr [Value.int 3])] := by
  constructor
  · intro base overlay h k; exact deep_merge_get overlay base h k
  · rfl

/-- Witness for C4 at a concrete base/overlay pair: both a recursive
Table/Table merge and an array replacement, with the Nodup hypothesis
discharged by computation. -/
theorem c4_witness :
    Table.get
        (deep_merge [("t", Value.table [("x", Value.int 1)]), ("n", Value.int 7)]
          [("t", Value.table [("y", Value.int 2)]), ("a", Value.arr [Value.int 3])])
        "t"
      = mergeOutcome
          (Table.get [("t", Value.table [("x", Value.int 1)]), ("n", Value.int 7)] "t")
          (Table.get [("t", Value.table [("y", Value.int 2)]), ("a", Value.arr [Value.int 3])] "t") :=
  c4_deep_merge_replaces_non_tables.1
    [("t", Value.table [("x", Value.int 1)]), ("n", Value.int 7)]
    [("t", Value.table [("y", Value.int 2)]), ("a", Value.arr [Value.int 3])]
    (by decide) "t"

/-- C5: `merge_at_path` with an empty path deep-merges a Table value's
entries into the tree's root, and is a silent no-op (the tree is returned
completely unchanged, no error) for every non-Table value. -/
theorem c5_merge_at_empty_path :
    (∀ (tree overlay : Table),
        merge_at_path tree [] (.table overlay) = deep_merge tree overlay)
    ∧ ∀ (tree : Table) (v : Value), Value.isTable v = false →
        merge_at_path tree [] v = tree := by
  constructor
  · intro tree overlay; rfl
  · intro tree v h; cases v <;> simp_all [merge_at_path, Value.isTable]

/-- Witness for C5: merging the non-Table value `5` at the empty path
leaves a concrete tree unchanged. -/
theorem c5_witness :
    merge_at_path [("k", Value.int 1)] [] (Value.int 5) = [("k", Value.int 1)] :=
  c5_merge_at_empty_path.2 [("k", Value.int 1)] (Value.int 5) rfl

/-! ### One resolution pass as an entrywise map over the snapshot -/

/-- When every entry of `t` resolves without error against the snapshot
`root`, the pass rewrites each entry independently through `root` and
sums the per-entry substitution counts. -/
theorem resolve_pass_map (root : Table) (t : Table)
    (h : ∀ kv ∈ t, ∃ m, (resolve_value kv.2 root).2 = Except.ok m) :
    resolve_pass t root
      = (t.map fun kv => (kv.1, (resolve_value kv.2 root).1),
         .ok ((t.map fun kv => countOr0 (resolve_value kv.2 root).2).sum)) := by
  induction t with
  | nil => rfl
  | cons kv0 rest ih =>
    obtain ⟨k, v⟩ := kv0
    obtain ⟨m, hm⟩ := h (k, v) (List.mem_cons_self _ _)
    have hrest := ih fun kv hkv => h kv (List.mem_cons_of_mem _ hkv)
    rcases hveq : resolve_value v root with ⟨v1, r⟩
    rw [hveq] at hm
    simp only at hm
    subst hm
    simp [resolve_pass, hveq, hrest, countOr0]

/-- A pass that returns `Ok` resolved every entry without error. -/
theorem resolve_pass_ok_all (root : Table) (t : Table) (t' : Table) (n : Nat)
    (h : resolve_pass t root = (t', .ok n)) :
    ∀ kv ∈ t, ∃ m, (resolve_value kv.2 root).2 = Except.ok m := by
  induction t generalizing t' n with
  | nil => intro kv hkv; cases hkv
  | cons kv0 rest ih =>
    obtain ⟨k, v⟩ := kv0
    intro kv hkv
    rcases hveq : resolve_value v root with ⟨v1, r⟩
    cases r with
    | error e => simp [resolve_pass, hveq] at h
    | ok m =>
      rcases hpassr : resolve_pass rest root with ⟨rest', r2⟩
      cases r2 with
      | error e => simp [resolve_pass, hveq, hpassr] at h
      | ok n2 =>
        rcases List.mem_cons.mp hkv with h1 | h2
        · subst h1; exact ⟨m, by rw [hveq]⟩
        · exact ih rest' n2 hpassr kv h2

/-- C2: within one pass every entry is rewritten against the immutable
snapshot `root` only — the pass result is the entrywise map of the input
through the snapshot, never a function of sibling values rewritten
earlier in the same pass — and hence a pass over any reordering of the
entries succeeds with the same substitution count and the correspondingly
reordered result. -/
theorem c2_pass_uses_snapshot_only :
    ∀ (t root t' : Table) (n : Nat), resolve_pass t root = (t', .ok n) →
      t' = (t.map fun kv => (kv.1, (resolve_value kv.2 root).1))
      ∧ n = (t.map fun kv => countOr0 (resolve_value kv.2 root).2).sum
      ∧ ∀ t2 : Table, t.Perm t2 →
          ∃ t2', resolve_pass t2 root = (t2', .ok n) ∧ t'.Perm t2' := by
  intro t root t' n h
  have hall := resolve_pass_ok_all root t t' n h
  have hmap := resolve_pass_map root t hall
  rw [h] at hmap
  have ht' := congrArg Prod.fst hmap
  have hok := congrArg Prod.snd hmap
  simp only at ht' hok
  have hn : n = (t.map fun kv => countOr0 (resolve_value kv.2 root).2).sum := by
    injection hok
  refine ⟨ht', hn, ?_⟩
  intro t2 hperm
  have hall2 : ∀ kv ∈ t2, ∃ m, (resolve_value kv.2 root).2 = Except.ok m :=
    fun kv hkv => hall kv (hperm.mem_iff.mpr hkv)
  have hmap2 := resolve_pass_map root t2 hall2
  refine ⟨t2.map fun kv => (kv.1, (resolve_value kv.2 root).1), ?_, ?_⟩
  · rw [hmap2, hn]
    have hsum := (hperm.map fun kv => countOr0 (resolve_value kv.2 root).2).sum_eq
    rw [hsum]
  · rw [ht']
    exact hperm.map _

/-- Witness for C2 at a concrete two-entry table: the pass equals the
entrywise map through the snapshot, counts one substitution, and any
permuted visit order gives the permuted result with the same count. -/
theorem c2_witness :
    ([("a", Value.str "v"), ("b", Value.str "v")] : Table)
        = (([("a", Value.str "${b}"), ("b", Value.str "v")] : Table).map fun kv =>
            (kv.1, (resolve_value kv.2 [("a", Value.str "${b}"), ("b", Value.str "v")]).1))
    ∧ 1 = (([("a", Value.str "${b}"), ("b", Value.str "v")] : Table).map fun kv =>
            countOr0 (resolve_value kv.2 [("a", Value.str "${b}"), ("b", Value.str "v")]).2).sum
    ∧ ∀ t2 : Table,
        List.Perm [("a", Value.str "${b}"), ("b", Value.str "v")] t2 →
        ∃ t2', resolve_pass t2 [("a", Value.str "${b}"), ("b", Value.str "v")] = (t2', .ok 1)
          ∧ List.Perm [("a", Value.str "v"), ("b", Value.str "v")] t2' :=
  c2_pass_uses_snapshot_only _ _ _ _ rfl

/-! ### The fixed-point loop and its 100-pass cap -/

theorem iterPass_zero (t : Table) : iterPass 0 t = resolve_pass t t := rfl

theorem iterPass_succ_of_ok (k : Nat) (t t1 : Table) (m : Nat)
    (h : resolve_pass t t = (t1, .ok m)) :
    iterPass (k + 1) t = iterPass k t1 := by
  simp [iterPass, h]

theorem iterPass_succ_of_error (k : Nat) (t t1 : Table) (e : ConfigError)
    (h : resolve_pass t t = (t1, .error e)) :
    iterPass (k + 1) t = (t1, .error e) := by
  simp [iterPass, h]

/-- The fuelled loop succeeds exactly when some pass within the fuel
budget makes zero substitutions while all earlier passes returned `Ok`. -/
theorem resolve_references_go_ok_iff (fuel : Nat) :
    ∀ t : Table, (resolve_references_go fuel t).2 = .ok () ↔
      ∃ k, k < fuel ∧ (iterPass k t).2 = .ok 0
        ∧ ∀ j < k, ∃ n, (iterPass j t).2 = .ok n := by
  induction fuel with
  | zero =>
    intro t
    constructor
    · intro h; exact absurd h (by simp [resolve_references_go])
    · rintro ⟨k, hk, _⟩; exact absurd hk (Nat.not_lt_zero k)
  | succ fuel ih =>
    intro t
    rcases hp : resolve_pass t t with ⟨t1, r⟩
    cases r with
    | ok m =>
      cases m with
      | zero =>
        constructor
        · intro _
          exact ⟨0, Nat.succ_pos fuel, by simp [iterPass, hp],
            fun j hj => absurd hj (Nat.not_lt_zero j)⟩
        · intro _; simp [resolve_references_go, hp]
      | succ m =>
        have hgo : resolve_references_go (fuel + 1) t
            = resolve_references_go fuel t1 := by
          simp [resolve_references_go, hp]
        rw [hgo, ih t1]
        constructor
        · rintro ⟨k, hk, hk0, hprev⟩
          refine ⟨k + 1, Nat.succ_lt_succ hk, ?_, ?_⟩
          · rwa [iterPass_succ_of_ok k t t1 (m + 1) hp]
          · intro j hj
            cases j with
            | zero => exact ⟨m + 1, by simp [iterPass, hp]⟩
            | succ j =>
              rw [iterPass_succ_of_ok j t t1 (m + 1) hp]
              exact hprev j (Nat.lt_of_succ_lt_succ hj)
        · rintro ⟨k, hk, hk0, hprev⟩
          cases k with
          | zero =>
            rw [show iterPass 0 t = (t1, .ok (m + 1)) from by
              simp [iterPass, hp]] at hk0
            simp at hk0
          | succ k =>
            rw [iterPass_succ_of_ok k t t1 (m + 1) hp] at hk0
            refine ⟨k, Nat.lt_of_succ_lt_succ hk, hk0, ?_⟩
            intro j hj
            have hj1 := hprev (j + 1) (Nat.succ_lt_succ hj)
            rwa [iterPass_succ_of_ok j t t1 (m + 1) hp] at hj1
    | error e =>
      constructor
      · intro h
        rw [show resolve_references_go (fuel + 1) t = (t1, .error e) from by
          simp [resolve_references_go, hp]] at h
        simp at h
      · rintro ⟨k, hk, hk0, _⟩
        cases k with
        | zero =>
          rw [show iterPass 0 t = (t1, .error e) from by
            simp [iterPass, hp]] at hk0
          simp at hk0
        | succ k =>
          rw [iterPass_succ_of_error k t t1 e hp] at hk0
          simp at hk0

/-- When every pass inside the fuel budget makes at least one
substitution, the fuelled loop exhausts its fuel and reports a circular
reference. -/
theorem resolve_references_go_busy (fuel : Nat) :
    ∀ t : Table, (∀ k < fuel, ∃ n, (iterPass k t).2 = .ok (n + 1)) →
      (resolve_references_go fuel t).2 = .error .circularReference := by
  induction fuel with
  | zero => intro t _; rfl
  | succ fuel ih =>
    intro t h
    obtain ⟨n, hn⟩ := h 0 (Nat.succ_pos fuel)
    rcases hp : resolve_pass t t with ⟨t1, r⟩
    have hr : r = .ok (n + 1) := by
      rw [show iterPass 0 t = (t1, r) from by simp [iterPass, hp]] at hn
      exact hn
    subst hr
    rw [show resolve_references_go (fuel + 1) t = resolve_references_go fuel t1 from by
      simp [resolve_references_go, hp]]
    apply ih
    intro k hk
    obtain ⟨n2, hn2⟩ := h (k + 1) (Nat.succ_lt_succ hk)
    rw [iterPass_succ_of_ok k t t1 (n + 1) hp] at hn2
    exact ⟨n2, hn2⟩

/-- C3: `resolve_references` runs at most 100 passes — it succeeds exactly
when some pass among the first 100 makes zero substitutions with no
earlier pass erroring, it reports a circular reference whenever all 100
passes each make at least one substitution, and in particular the mutual
cycle `a="${b}"`, `b="${a}"` yields the circular-reference error. -/
theorem c3_pass_cap :
    (∀ t : Table, (resolve_references t).2 = .ok () ↔
        ∃ k, k < 100 ∧ (iterPass k t).2 = .ok 0
          ∧ ∀ j < k, ∃ n, (iterPass j t).2 = .ok n)
    ∧ (∀ t : Table, (∀ k < 100, ∃ n, (iterPass k t).2 = .ok (n + 1)) →
        (resolve_references t).2 = .error .circularReference)
    ∧ (resolve_references [("a", Value.str "${b}"), ("b", Value.str "${a}")]).2
        = .error .circularReference := by
  refine ⟨fun t => resolve_references_go_ok_iff 100 t,
    fun t h => resolve_references_go_busy 100 t h, rfl⟩

/-- Witness for C3: the success characterization applied to a
reference-free one-entry table (its first pass makes zero substitutions),
and the circular-reference clause applied to the mutual cycle, whose
passes each make two substitutions. -/
theorem c3_witness :
    (resolve_references [("a", Value.str "x")]).2 = .ok ()
    ∧ (resolve_references [("a", Value.str "${b}"), ("b", Value.str "${a}")]).2
        = .error .circularReference := by
  constructor
  · exact (c3_pass_cap.1 [("a", Value.str "x")]).mpr
      ⟨0, by omega, rfl, fun j hj => absurd hj (Nat.not_lt_zero j)⟩
  · refine c3_pass_cap.2.1 _ ?_
    have hfix : ∀ k, iterPass k [("a", Value.str "${a}"), ("b", Value.str "${b}")]
        = ([("a", Value.str "${a}"), ("b", Value.str "${b}")], .ok 2) := by
      intro k
      induction k with
      | zero => rfl
      | succ k ihk =>
        rw [iterPass_succ_of_ok k
          [("a", Value.str "${a}"), ("b", Value.str "${b}")]
          [("a", Value.str "${a}"), ("b", Value.str "${b}")] 2 rfl]
        exact ihk
    intro k hk
    cases k with
    | zero => exact ⟨1, rfl⟩
    | succ k =>
      rw [iterPass_succ_of_ok k
        [("a", Value.str "${b}"), ("b", Value.str "${a}")]
        [("a", Value.str "${a}"), ("b", Value.str "${b}")] 2 rfl, hfix k]
      exact ⟨1, rfl⟩

/-! ### Inert trees (no `$$`, no `${`) are fixed points of resolution -/

/-- A cons cell scans to itself with a zero count only if its tail does:
inverts the literal-character step of the scanner. -/
theorem scanGo_cons_self_inv (root : Table) (c : Char) (rest : List Char)
    (hc : ¬c = '$')
    (h : scanGo root .normal (c :: rest) = .ok (c :: rest, 0)) :
    scanGo root .normal rest = .ok (rest, 0) := by
  simp only [scanGo, if_neg hc] at h
  rcases hs : scanGo root .normal rest with e | p
  · rw [hs] at h; simp [Except.map] at h
  · obtain ⟨p1, p2⟩ := p
    rw [hs] at h
    simp [Except.map] at h
    rw [h.1, h.2]

/-- Scanning inert text (no `$$`, no `${`) re-emits it unchanged with a
zero substitution count: ordinary characters and lone `$` are copied
literally and nothing is counted. -/
theorem scanGo_inert (root : Table) :
    ∀ cs : List Char, dollarInert cs = true →
      scanGo root .normal cs = .ok (cs, 0) := by
  intro cs
  induction cs with
  | nil => intro _; rfl
  | cons c rest ih =>
    intro h
    by_cases hc : c = '$'
    · subst hc
      cases rest with
      | nil => rfl
      | cons c2 rest2 =>
        have h' : (!(c2 == '$' || c2 == '{') && dollarInert (c2 :: rest2))
            = true := h
        simp only [Bool.and_eq_true, Bool.not_eq_true', Bool.or_eq_false_iff,
          beq_eq_false_iff_ne, ne_eq] at h'
        obtain ⟨⟨hc2, hb2⟩, hrest⟩ := h'
        have hr2 := scanGo_cons_self_inv root c2 rest2 hc2 (ih hrest)
        simp [scanGo, hc2, hb2, hr2, Except.map]
    · simp only [dollarInert, if_neg hc] at h
      simp [scanGo, hc, ih h, Except.map]

mutual
theorem resolve_value_inert : ∀ (v : Value) (root : Table),
    valueInert v = true → resolve_value v root = (v, Except.ok 0)
  | .str s, root, h => by
    simp only [valueInert] at h
    simp [resolve_value, resolve_string, scanGo_inert root s.data h]
  | .int i, _, _ => rfl
  | .float s, _, _ => rfl
  | .bool b, _, _ => rfl
  | .datetime s, _, _ => rfl
  | .arr items, root, h => by
    simp only [valueInert] at h
    simp [resolve_value, resolve_array_inert items root h]
  | .table t, root, h => by
    simp only [valueInert] at h
    simp [resolve_value, resolve_pass_inert t root h]

theorem resolve_array_inert : ∀ (items : List Value) (root : Table),
    arrInert items = true → resolve_array items root = (items, Except.ok 0)
  | [], _, _ => rfl
  | v :: rest, root, h => by
    simp only [arrInert, Bool.and_eq_true] at h
    simp [resolve_array, resolve_value_inert v root h.1,
      resolve_array_inert rest root h.2]

theorem resolve_pass_inert : ∀ (t : Table) (root : Table),
    tableInert t = true → resolve_pass t root = (t, Except.ok 0)
  | [], _, _ => rfl
  | (k, v) :: rest, root, h => by
    simp only [tableInert, Bool.and_eq_true] at h
    simp [resolve_pass, resolve_value_inert v root h.1,
      resolve_pass_inert rest root h.2]
end

/-- An inert tree resolves to itself immediately: the first pass makes
zero substitutions and changes nothing. -/
theorem resolve_references_inert (t : Table)
    (h : tableInert t = true) : resolve_references t = (t, .ok ()) := by
  have hp := resolve_pass_inert t t h
  rw [resolve_references, show (100 : Nat) = 99 + 1 from rfl]
  simp [resolve_references_go, hp]

/-- Counterexample to C1 as stated, in both of the ways a resolved tree
can fail to be a fixed point.  `a = "$${VAR}"` resolves successfully to
`a = "${VAR}"`, but a second call re-interprets the unescaped `${VAR}`
and fails with reference-not-found.  `a = "x$$$$y"` resolves successfully
to `a = "x$$y"`, but a second call, while succeeding with zero counted
substitutions, rewrites the table to `a = "x$y"` — not unchanged.  Both
failures come from a `$$` or `${` substring in a resolved string. -/
theorem c1_counterexample :
    resolve_references [("a", Value.str "$${VAR}")]
        = ([("a", Value.str "${VAR}")], .ok ())
    ∧ resolve_references [("a", Value.str "${VAR}")]
        = ([("a", Value.str "${VAR}")], .error (.referenceNotFound "VAR"))
    ∧ resolve_references [("a", Value.str "x$$$$y")]
        = ([("a", Value.str "x$$y")], .ok ())
    ∧ resolve_references [("a", Value.str "x$$y")]
        = ([("a", Value.str "x$y")], .ok ())
    ∧ ([("a", Value.str "x$y")] : Table) ≠ [("a", Value.str "x$$y")] := by
  refine ⟨rfl, rfl, rfl, rfl, ?_⟩
  simp

/-- C1 (amended): a second `resolve_references` call makes zero
substitutions and returns success with the table unchanged provided no
resolved string contains a `$$` or `${` substring.  Lone `$` characters
(not followed by `$` or `{`, a trailing `$` included) are harmless and
remain covered; only escape-produced `${...}` text, which a second call
re-interprets as a reference, and `$$` pairs, which it collapses again,
are excluded — exactly the two failure modes of the counterexample. -/
theorem c1_amended_inert_idempotent :
    ∀ t t' : Table, resolve_references t = (t', .ok ()) →
      tableInert t' = true →
      resolve_pass t' t' = (t', .ok 0) ∧ resolve_references t' = (t', .ok ()) := by
  intro t t' _ h
  exact ⟨resolve_pass_inert t' t' h, resolve_references_inert t' h⟩

/-- Witness for C1 (amended) on a resolved tree whose string keeps a lone
`$`: `a = "x$$y"` resolves to `a = "x$y"`, which is inert, so the second
call is a zero-substitution success leaving the table unchanged. -/
theorem c1_witness :
    resolve_pass [("a", Value.str "x$y")] [("a", Value.str "x$y")]
        = ([("a", Value.str "x$y")], .ok 0)
    ∧ resolve_references [("a", Value.str "x$y")]
        = ([("a", Value.str "x$y")], .ok ()) :=
  c1_amended_inert_idempotent [("a", Value.str "x$$y")]
    [("a", Value.str "x$y")] rfl rfl

/-- C6: chained references resolve fully across passes — values produced
in one pass become visible to the next pass through the fresh snapshot,
so `a="hello"`, `b="${a} world"`, `c="${b}!"` resolves successfully with
`c == "hello world!"`. -/
theorem c6_chained_references :
    resolve_references
        [("a", Value.str "hello"), ("b", Value.str "${a} world"),
          ("c", Value.str "${b}!")]
      = ([("a", Value.str "hello"), ("b", Value.str "hello world"),
          ("c", Value.str "hello world!")], .ok ())
    ∧ Table.get
        (resolve_references
          [("a", Value.str "hello"), ("b", Value.str "${a} world"),
            ("c", Value.str "${b}!")]).1 "c"
      = some (Value.str "hello world!") :=
  ⟨rfl, rfl⟩

/-- C10: `resolve_references` is not atomic on failure — on
`a = "${b}"`, `b = "$${x}"` the first pass rewrites both entries (one
substitution), the second pass rewrites `a` again and then fails on `b`
with a reference-not-found error, and the error is returned with the
tree in its mutated state: earlier-pass and earlier-in-pass rewrites are
kept, while the failing string keeps the value it had when the failing
pass began. -/
theorem c10_not_atomic_on_failure :
    resolve_pass [("a", Value.str "${b}"), ("b", Value.str "$${x}")]
        [("a", Value.str "${b}"), ("b", Value.str "$${x}")]
      = ([("a", Value.str "$${x}"), ("b", Value.str "${x}")], .ok 1)
    ∧ resolve_pass [("a", Value.str "$${x}"), ("b", Value.str "${x}")]
        [("a", Value.str "$${x}"), ("b", Value.str "${x}")]
      = ([("a", Value.str "${x}"), ("b", Value.str "${x}")],
          .error (.referenceNotFound "x"))
    ∧ resolve_references [("a", Value.str "${b}"), ("b", Value.str "$${x}")]
      = ([("a", Value.str "${x}"), ("b", Value.str "${x}")],
          .error (.referenceNotFound "x"))
    ∧ [("a", Value.str "${x}"), ("b", Value.str "${x}")]
        ≠ [("a", Value.str "${b}"), ("b", Value.str "$${x}")] := by
  refine ⟨rfl, rfl, rfl, ?_⟩
  simp

/-! ### Scanner escapes and the resolver's error taxonomy -/

/-- C7: in the scan of one pass, `$$` consumes two input characters and
emits a single literal `$` without touching the substitution counter, a
lone `$` not followed by `{` or `$` — including a `$` ending the
string — is emitted literally without error, and the tree whose only
string is `"use $${VAR} here"` resolves successfully to
`"use ${VAR} here"` with a zero-substitution pass. -/
theorem c7_escape_and_lone_dollar :
    (∀ (root : Table) (cs : List Char),
        scanGo root .normal ('$' :: '$' :: cs)
          = (scanGo root .normal cs).map fun p => ('$' :: p.1, p.2))
    ∧ (∀ (root : Table) (c : Char) (cs : List Char), c ≠ '$' → c ≠ '{' →
        scanGo root .normal ('$' :: c :: cs)
          = (scanGo root .normal cs).map fun p => ('$' :: c :: p.1, p.2))
    ∧ (∀ root : Table, scanGo root .normal ['$'] = .ok (['$'], 0))
    ∧ resolve_references [("only", Value.str "use $${VAR} here")]
        = ([("only", Value.str "use ${VAR} here")], .ok ())
    ∧ resolve_pass [("only", Value.str "use $${VAR} here")]
        [("only", Value.str "use $${VAR} here")]
        = ([("only", Value.str "use ${VAR} here")], .ok 0) := by
  refine ⟨fun root cs => rfl, ?_, fun root => rfl, rfl, rfl⟩
  intro root c cs h1 h2
  simp [scanGo, h1, h2]

/-- Witness for C7's lone-`$` clause: `"$x"` scans to itself with zero
substitutions, the hypotheses `x ≠ $` and `x ≠ \x7b` discharged by
computation. -/
theorem c7_witness :
    scanGo [] ScanMode.normal ['$', 'x']
      = (scanGo [] ScanMode.normal ([] : List Char)).map
          fun p => ('$' :: 'x' :: p.1, p.2) :=
  c7_escape_and_lone_dollar.2.1 [] 'x' [] (by decide) (by decide)

/-- Inside an unterminated `${...}`, scanning fails with the
unclosed-reference error. -/
theorem scanGo_inRef_unclosed (root : Table) :
    ∀ (cs : List Char) (acc : List Char), '}' ∉ cs →
      scanGo root (.inRef acc) cs = .error .unclosedReference := by
  intro cs
  induction cs with
  | nil => intro acc _; rfl
  | cons c rest ih =>
    intro acc h
    have hc : ¬(c = '}') := fun hcc => h (hcc ▸ List.mem_cons_self c rest)
    simp [scanGo, hc, ih (c :: acc) fun hm => h (List.mem_cons_of_mem c hm)]

theorem except_map_error {α β : Type} (f : α → β)
    (x : Except ConfigError α) (e : ConfigError) (h : x.map f = .error e) :
    x = .error e := by
  cases x <;> simp_all [Except.map]

/-- `value_to_string` fails only with the non-scalar error for the
rendered path. -/
theorem value_to_string_error (v : Value) (path : String) (e : ConfigError)
    (h : value_to_string v path = .error e) : e = .nonScalarReference path := by
  cases v <;> simp_all [value_to_string]

/-- The dotted walk fails only with the reference-not-found error for
the rendered path. -/
theorem lookup_chain_error (parts : List String) :
    ∀ (v : Value) (path : String) (e : ConfigError),
      lookup_chain v parts path = .error e → e = .referenceNotFound path := by
  induction parts with
  | nil => intro v path e h; simp [lookup_chain] at h
  | cons p rest ih =>
    intro v path e h
    cases v with
    | table t =>
      rcases hg : Table.get t p with _ | v2
      · rw [lookup_chain, hg] at h
        simp_all
      · rw [lookup_chain, hg] at h
        exact ih v2 path e h
    | str s => simp_all [lookup_chain]
    | int i => simp_all [lookup_chain]
    | float s => simp_all [lookup_chain]
    | bool b => simp_all [lookup_chain]
    | datetime s => simp_all [lookup_chain]
    | arr items => simp_all [lookup_chain]

/-- `lookup_path` never reports a circular reference. -/
theorem lookup_path_ne_circular (root : Table) (p : List Char) (e : ConfigError)
    (h : lookup_path root p = .error e) : e ≠ .circularReference := by
  simp only [lookup_path] at h
  split at h
  · have he : ConfigError.invalidReferencePath (String.mk p) = e := by
      simpa using h
    rw [← he]; simp
  · split at h
    · rename_i v hch
      have he := value_to_string_error v (String.mk p) e h
      rw [he]; simp
    · rename_i e2 hch
      have he2 : e2 = e := by simpa using h
      have hnf := lookup_chain_error _ _ _ _ hch
      rw [← he2, hnf]; simp

/-- The string scanner never reports a circular reference: its failures
are confined to the unclosed-reference, invalid-path, not-found and
non-scalar errors raised by the scan and the snapshot lookup. -/
theorem scanGo_ne_circular (root : Table) :
    ∀ (cs : List Char) (mode : ScanMode) (e : ConfigError),
      scanGo root mode cs = .error e → e ≠ .circularReference := by
  intro cs
  induction cs with
  | nil =>
    intro mode e h
    cases mode with
    | normal => simp [scanGo] at h
    | afterDollar => simp [scanGo] at h
    | inRef acc =>
      have he : ConfigError.unclosedReference = e := by simpa [scanGo] using h
      rw [← he]; simp
  | cons c rest ih =>
    intro mode e h
    cases mode with
    | normal =>
      rw [scanGo] at h
      split at h
      · exact ih .afterDollar e h
      · exact ih .normal e (except_map_error _ _ _ h)
    | afterDollar =>
      rw [scanGo] at h
      split at h
      · exact ih .normal e (except_map_error _ _ _ h)
      · split at h
        · exact ih (.inRef []) e h
        · exact ih .normal e (except_map_error _ _ _ h)
    | inRef acc =>
      rw [scanGo] at h
      split at h
      · split at h
        · exact ih .normal e (except_map_error _ _ _ h)
        · rename_i e2 hl
          have he2 : e2 = e := by simpa using h
          exact he2 ▸ lookup_path_ne_circular root acc.reverse e2 hl
      · exact ih (.inRef (c :: acc)) e h

/-- C8: the resolver's failures follow the spec's taxonomy exactly — a
`${` with no closing `}` is an unclosed-reference error; a captured path
that is empty or has an empty dot-separated segment is an
invalid-reference-path error; a missing segment or a non-Table
intermediate with segments remaining is a reference-not-found error; a
resolved Table or Array is a non-scalar-reference error, while
String/Integer/Float/Boolean/Timestamp values are spliced via their
canonical textual form (integers in base 10, booleans as true/false);
and the scanner raises no other error kind (never circular-reference). -/
theorem c8_error_taxonomy :
    (∀ (root : Table) (cs : List Char), '}' ∉ cs →
        scanGo root .normal ('$' :: '{' :: cs) = .error .unclosedReference)
    ∧ (∀ (root : Table) (p : List Char),
        (splitDots p).any (fun part => part.isEmpty) = true →
        lookup_path root p = .error (.invalidReferencePath (String.mk p)))
    ∧ (∀ (path : String) (t : Table) (k : String) (rest : List String),
        Table.get t k = none →
        lookup_chain (.table t) (k :: rest) path
          = .error (.referenceNotFound path))
    ∧ (∀ (path : String) (v : Value) (k : String) (rest : List String),
        Value.isTable v = false →
        lookup_chain v (k :: rest) path = .error (.referenceNotFound path))
    ∧ (∀ (path : String) (t : Table),
        value_to_string (.table t) path = .error (.nonScalarReference path))
    ∧ (∀ (path : String) (items : List Value),
        value_to_string (.arr items) path = .error (.nonScalarReference path))
    ∧ (∀ (path s : String), value_to_string (.str s) path = .ok s)
    ∧ (∀ (path : String) (i : Int), value_to_string (.int i) path = .ok (toString i))
    ∧ (∀ (path : String) (b : Bool),
        value_to_string (.bool b) path = .ok (if b then "true" else "false"))
    ∧ (∀ (path text : String), value_to_string (.float text) path = .ok text)
    ∧ (∀ (path text : String), value_to_string (.datetime text) path = .ok text)
    ∧ (∀ (root : Table) (cs : List Char) (e : ConfigError),
        scanGo root .normal cs = .error e → e ≠ .circularReference) := by
  refine ⟨?_, ?_, ?_, ?_, fun path t => rfl, fun path items => rfl,
    fun path s => rfl, fun path i => rfl, fun path b => rfl,
    fun path text => rfl, fun path text => rfl,
    fun root cs e h => scanGo_ne_circular root cs .normal e h⟩
  · intro root cs h
    rw [show scanGo root .normal ('$' :: '{' :: cs)
        = scanGo root (.inRef []) cs from rfl]
    exact scanGo_inRef_unclosed root cs [] h
  · intro root p h
    simp [lookup_path, h]
  · intro path t k rest h
    simp [lookup_chain, h]
  · intro path v k rest h
    cases v <;> simp_all [lookup_chain, Value.isTable]

/-- Witness for C8: each hypothesis-bearing clause applied at a concrete
input — an unterminated reference, an empty captured path, a missing
root key, and a non-Table intermediate — plus a concrete instance of the
never-circular clause. -/
theorem c8_witness :
    scanGo [] ScanMode.normal ['$', '{', 'x'] = .error .unclosedReference
    ∧ lookup_path [] [] = .error (.invalidReferencePath (String.mk []))
    ∧ lookup_chain (.table []) ["k"] "k" = .error (.referenceNotFound "k")
    ∧ lookup_chain (.int 0) ["k"] "z.k" = .error (.referenceNotFound "z.k")
    ∧ ConfigError.unclosedReference ≠ ConfigError.circularReference :=
  ⟨c8_error_taxonomy.1 [] ['x'] (by decide),
   c8_error_taxonomy.2.1 [] [] (by decide),
   c8_error_taxonomy.2.2.1 "k" [] "k" [] rfl,
   c8_error_taxonomy.2.2.2.1 "z.k" (.int 0) "k" [] rfl,
   c8_error_taxonomy.2.2.2.2.2.2.2.2.2.2.2 [] ['$', '{'] .unclosedReference rfl⟩

/-! ### Environment-variable coercion -/

/-- An integer-looking text (optional `-`, then digits) contains no `.`
character, so the float branch can never fire after a failed integer
parse. -/
theorem looks_like_integer_no_dot (cs : List Char)
    (h : looks_like_integer cs = true) : cs.contains '.' = false := by
  have key : ∀ ds : List Char, ds.all Char.isDigit = true →
      ds.contains '.' = false := by
    intro ds hall
    have hm : '.' ∉ ds :=
      fun hm => absurd (List.all_eq_true.mp hall _ hm) (by decide)
    simp [hm]
  simp only [looks_like_integer, Bool.and_eq_true] at h
  split at h
  · rename_i rest
    have hnotin : '.' ∉ rest := by simpa using key rest h.2
    have hm : ('.' : Char) ∉ '-' :: rest := by
      intro hmem
      rcases List.mem_cons.mp hmem with hh | ht
      · exact absurd hh (by decide)
      · exact hnotin ht
    simp [hm]
  · exact key cs h.2

/-- `coerce_value` agrees with the spec's strict classification order on
every input. -/
theorem coerce_value_eq_spec : ∀ s : String, coerce_value s = coerce_spec s := by
  intro s
  unfold coerce_value coerce_spec
  by_cases h1 : eqIgnoreAsciiCase s.data "true".data = true
  · simp [h1]
  · by_cases h2 : eqIgnoreAsciiCase s.data "false".data = true
    · simp [h1, h2]
    · by_cases h3 : looks_like_integer s.data = true
      · rcases hp : parse_i64 s.data with _ | i
        · have hnd : '.' ∉ s.data := by
            simpa using looks_like_integer_no_dot s.data h3
          simp [h1, h2, h3, hp, hnd]
        · simp [h1, h2, h3, hp]
      · by_cases h4 : s.data.contains '.' = true
        · by_cases h5 : parse_f64_accepts s.data = true
          · simp [h1, h2, h3, h4, h5]
          · simp [h1, h2, h3, h4, h5]
        · have h4' : '.' ∉ s.data := by simpa using h4
          simp [h1, h2, h3, h4']

/-- C9: environment coercion classifies every raw text in the spec's
strict order — case-insensitive true/false as Boolean, then an optional
leading minus followed by one or more ASCII digits as a base-10 64-bit
Integer (leading zeros allowed), then a float attempt only when the text
contains a dot, and the
verbatim String in every remaining case, including `"1.2.3"`, `"-"`,
`""` and any failed typed parse. -/
theorem c9_env_coercion :
    (∀ s : String, coerce_value s = coerce_spec s)
    ∧ coerce_value "42" = .int 42
    ∧ coerce_value "-123" = .int (-123)
    ∧ coerce_value "3.14" = .float "3.14"
    ∧ coerce_value "TRUE" = .bool true
    ∧ coerce_value "007" = .int 7
    ∧ coerce_value "1.2.3" = .str "1.2.3"
    ∧ coerce_value "" = .str ""
    ∧ coerce_value "-" = .str "-" :=
  ⟨coerce_value_eq_spec, rfl, rfl, rfl, rfl, rfl, rfl, rfl, rfl⟩

end Dragon
